import Mathlib

/-!
Verification development for the keg NGDP client (`src/main.py`).

The program is shallowly embedded over `List Char` strings so that every
definition is executable and kernel-reducible:

* `FlatINI` models the ordered multi-value mapping of class `FlatINI`
  (an `OrderedDict` subclass), with `readfpL` modelling `readfp`,
  `setItem` modelling `__setitem__`, `itemsFlat` modelling `items`,
  `getItem?` modelling indexing, and `strFlat` modelling `__str__`.
* The connection layer (`cdn_get`, `get_or_cache`, `get_config`,
  `parse_csv`, `get_cached_csv`, `conn_cdn`, `resolveCdnHost`) models
  class `NGDPConnection`, with the network as an explicit oracle
  `Net`, the disk cache as an explicit association list, and observable
  effects (HTTP fetches, cache writes) collected in an event list.
-/

/-- Strings of the embedded program, as character lists (Python `str`). -/
abbrev Str := List Char

/-- Coerce a Lean string literal to an embedded string. -/
def chars (s : String) : Str := s.data

/-- Python `str.strip` whitespace test. -/
def isWs (c : Char) : Bool := c.isWhitespace

/-- Remove trailing whitespace (the right half of Python `str.strip`). -/
def rstrip : Str → Str
  | [] => []
  | c :: rest =>
    match rstrip rest with
    | [] => if isWs c then [] else [c]
    | r => c :: r

/-- Python `str.strip`: remove leading and trailing whitespace. -/
def stripL (l : Str) : Str := rstrip (l.dropWhile isWs)

/-- Split a character list on every occurrence of `c` (Python `str.split(c)`
for a one-character separator: always returns at least one piece). -/
def splitChar (c : Char) : Str → List Str
  | [] => [[]]
  | x :: xs =>
    if x = c then [] :: splitChar c xs
    else
      match splitChar c xs with
      | [] => [[x]]
      | h :: t => (x :: h) :: t

/-- One line of `FlatINI.readfp`: strip the line, skip it when blank or a
`#` comment, otherwise partition on the first `=` and strip key and value. -/
def parseLineL (line : Str) : Option (Str × Str) :=
  if stripL line = [] then none
  else if (stripL line).head? = some '#' then none
  else
    some (stripL ((stripL line).takeWhile (fun c => !(c == '='))),
          stripL (((stripL line).dropWhile (fun c => !(c == '='))).tail))

/-- A value stored in the `FlatINI` ordered dictionary: either a plain
string or (after a repeated key) a Python list of strings. -/
inductive INIVal
  | scalar (s : Str)
  | multi (l : List Str)
deriving DecidableEq

/-- The `FlatINI` ordered dictionary: entries in insertion order of the
first occurrence of each key; keys are unique. -/
abbrev FlatINI := List (Str × INIVal)

/-- `FlatINI.__setitem__`: on a fresh key store the bare value; on a
repeated key turn the stored value into a list and append. -/
def setItem (d : FlatINI) (k v : Str) : FlatINI :=
  if d.any (fun p => p.1 == k) then
    d.map (fun p =>
      if p.1 == k then
        (p.1, match p.2 with
          | INIVal.scalar s => INIVal.multi [s, v]
          | INIVal.multi l => INIVal.multi (l ++ [v]))
      else p)
  else d ++ [(k, INIVal.scalar v)]

/-- `FlatINI.readfp` over a list of already-split lines. -/
def readfpL (d : FlatINI) (lines : List Str) : FlatINI :=
  lines.foldl (fun d line =>
    match parseLineL line with
    | none => d
    | some (k, v) => setItem d k v) d

/-- Parse a list of lines into a fresh `FlatINI`. -/
def parseLines (lines : List Str) : FlatINI := readfpL [] lines

/-- Parse a whole blob (`readfp` on a `StringIO`: split into lines on
newlines, then process each line). -/
def parseBlob (blob : Str) : FlatINI := parseLines (splitChar '\n' blob)

/-- Indexing `config[k]` (`OrderedDict.__getitem__`, not overridden):
the stored value for `k`, or `None`-like absence modelling `KeyError`. -/
def getItem? (d : FlatINI) (k : Str) : Option INIVal :=
  (d.find? (fun p => p.1 == k)).map (fun p => p.2)

/-- `FlatINI.items`: walk the underlying dictionary in order and expand
each list value into one entry per element. -/
def itemsFlat (d : FlatINI) : List (Str × Str) :=
  d.flatMap (fun p =>
    match p.2 with
    | INIVal.scalar s => [(p.1, s)]
    | INIVal.multi l => l.map (fun v => (p.1, v)))

/-- One serialized line of `FlatINI.__str__`. -/
def serLine (p : Str × Str) : Str := p.1 ++ ' ' :: '=' :: ' ' :: p.2

/-- Python `"\n".join`. -/
def joinLines : List Str → Str
  | [] => []
  | [l] => l
  | l :: rest => l ++ '\n' :: joinLines rest

/-- `FlatINI.__str__`: newline-joined `key = value` lines over `items`. -/
def strFlat (d : FlatINI) : Str := joinLines ((itemsFlat d).map serLine)

/-- The (key, value) pairs a list of lines contributes, in line order. -/
def parsedPairs (lines : List Str) : List (Str × Str) :=
  lines.filterMap parseLineL

/-- The (key, value) pairs of a blob, in source line order. -/
def blobPairs (b : Str) : List (Str × Str) := parsedPairs (splitChar '\n' b)

/-- The ordered list of values bound to key `k` in a pair list. -/
def valuesFor (k : Str) (ps : List (Str × Str)) : List Str :=
  (ps.filter (fun p => p.1 == k)).map (fun p => p.2)

/-- Keys of a list in order of first occurrence, without repetitions. -/
def firstDedup : List Str → List Str
  | [] => []
  | k :: rest => k :: firstDedup (rest.filter (fun x => !(x == k)))
termination_by l => l.length
decreasing_by
  simp only [List.length_cons]
  exact Nat.lt_succ_of_le (List.length_filter_le _ _)

/-- Pack an ordered value list the way `FlatINI` stores it: a bare value
when the key occurred once, a list when it occurred more often. -/
def mkVal : List Str → INIVal
  | [v] => INIVal.scalar v
  | l => INIVal.multi l

/-- The canonical form of the dictionary built from a pair list: keys in
first-occurrence order, each bound to its packed ordered value list. -/
def canon (ps : List (Str × Str)) : FlatINI :=
  (firstDedup (ps.map (fun p => p.1))).map (fun k => (k, mkVal (valuesFor k ps)))

/-- Insert a pair list into a fresh dictionary via `setItem`. -/
def buildDict (ps : List (Str × Str)) : FlatINI :=
  ps.foldl (fun d p => setItem d p.1 p.2) []

/-- An HTTP response as seen by the client: status code and body bytes. -/
structure HttpResponse where
  status : Nat
  content : Str

/-- The network, as a pure oracle from request URL to response
(`requests.get`); the client is single-threaded and performs no retry,
so one call per URL occurrence fully determines each run. -/
abbrev Net := Str → HttpResponse

/-- The exception taxonomy of the program: `ServerError` (carrying the
HTTP status and the queried URL, as in the message built at
`cdn_get`), its subclass `ServerConfigurationError`, and the Python
builtins `KeyError` and `IndexError` that unguarded subscripts raise. -/
inductive PyErr
  | serverError (status : Nat) (url : Str)
  | serverConfigurationError
  | keyError (field : Str)
  | indexError
deriving DecidableEq

/-- Observable side effects of a call: a network fetch of a URL, or a
cache write under a namespace/name pair. -/
inductive Ev
  | fetch (url : Str)
  | cwrite (ns name : Str)
deriving DecidableEq

/-- The on-disk `NGDPCache`, as an association list from
(namespace `key`, file `name`) to stored bytes; a write prepends, a
lookup takes the most recent entry, so overwriting is modelled exactly. -/
abbrev CacheState := List ((Str × Str) × Str)

/-- `NGDPCache.contains`/`NGDPCache.get` combined: the stored bytes for
the pair, when present. -/
def cacheLookup (st : CacheState) (ns name : Str) : Option Str :=
  (st.find? (fun e => e.1.1 == ns && e.1.2 == name)).map (fun e => e.2)

/-- `NGDPCache.write`. -/
def cacheWrite (st : CacheState) (ns name data : Str) : CacheState :=
  ((ns, name), data) :: st

/-- `split_hash`: the first two characters, the next two, and the whole. -/
def split_hash (h : Str) : Str × Str × Str :=
  (h.take 2, ((h.drop 2).take 2), h)

/-- The CDN path `key/aa/bb/name` built in `get_or_cache` from
`split_hash`. -/
def hashPath (key name : Str) : Str :=
  let t := split_hash name
  key ++ chars "/" ++ t.1 ++ chars "/" ++ t.2.1 ++ chars "/" ++ t.2.2

/-- `NGDPConnection.cdn_get`: GET the resolved CDN host plus `path`;
raise `ServerError` carrying the status code and URL on a non-200
response. The second component lists the fetches performed. -/
def cdn_get (net : Net) (cdnHost path : Str) : Except PyErr Str × List Ev :=
  if (net (cdnHost ++ path)).status ≠ 200 then
    (Except.error (PyErr.serverError (net (cdnHost ++ path)).status (cdnHost ++ path)),
     [Ev.fetch (cdnHost ++ path)])
  else (Except.ok (net (cdnHost ++ path)).content, [Ev.fetch (cdnHost ++ path)])

/-- Result of a caching fetch: the returned value or exception, the
cache afterwards, and the effects performed, in order. -/
structure FetchOut (α : Type) where
  result : Except PyErr α
  cache : CacheState
  events : List Ev

/-- `NGDPConnection.get_or_cache`, for a connection whose CDN host is
already resolved to `cdnHost`: serve from the cache when the entry
exists, otherwise fetch `key/aa/bb/name` from the CDN and write the
bytes to the cache before returning them. -/
def get_or_cache (net : Net) (cdnHost : Str) (st : CacheState) (key hash : Str)
    (name? : Option Str) : FetchOut Str :=
  match cacheLookup st key (name?.getD hash) with
  | some data => ⟨Except.ok data, st, []⟩
  | none =>
    match cdn_get net cdnHost (hashPath key (name?.getD hash)) with
    | (Except.ok data, evs) =>
      ⟨Except.ok data, cacheWrite st key (name?.getD hash) data,
       evs ++ [Ev.cwrite key (name?.getD hash)]⟩
    | (Except.error e, evs) => ⟨Except.error e, st, evs⟩

/-- `NGDPConnection.get_config`: hash-addressed fetch through
`get_or_cache` under namespace `config`, then a `FlatINI` parse of the
UTF-8 decoded bytes. -/
def get_config (net : Net) (cdnHost : Str) (st : CacheState) (hash : Str) :
    FetchOut FlatINI :=
  match get_or_cache net cdnHost st (chars "config") hash none with
  | ⟨Except.ok data, st', evs⟩ => ⟨Except.ok (parseBlob data), st', evs⟩
  | ⟨Except.error e, st', evs⟩ => ⟨Except.error e, st', evs⟩

/-- A parsed manifest row: the positional zip of column names with the
row cells; looked up with Python dict semantics (`dictGet`). -/
abbrev Row := List (Str × Str)

/-- Python dict lookup over the comprehension-built row: for a repeated
column name the later binding wins. -/
def dictGet (d : Row) (k : Str) : Option Str :=
  (d.reverse.find? (fun p => p.1 == k)).map (fun p => p.2)

/-- Column-name cleanup in `_parse_csv`: `c.split("!")[0]`, the header
cell text before the first `!`. -/
def stripType (c : Str) : Str := c.takeWhile (fun ch => !(ch == '!'))

/-- The lines `csv.reader` iterates over: split the text on newlines and
ignore the empty piece a trailing newline produces. -/
def pyLines (t : Str) : List Str :=
  let parts := splitChar '\n' t
  if parts.getLast? = some [] then parts.dropLast else parts

/-- One `csv.reader` row with delimiter `|`: an empty line yields an
empty row, any other line is split on every pipe. -/
def csvRow (l : Str) : List Str := if l = [] then [] else splitChar '|' l

/-- The row list `csv.reader(StringIO(text), delimiter="|")` yields. -/
def csvRows (t : Str) : List (List Str) := (pyLines t).map csvRow

/-- `NGDPConnection._parse_csv`: `rows[0]` is the header (an
`IndexError` when there are no rows at all); every later row is zipped
positionally against the type-stripped column names. -/
def parse_csv (rows : List (List Str)) : Except PyErr (List Row) :=
  match rows with
  | [] => Except.error PyErr.indexError
  | header :: rest =>
    let names := header.map stripType
    Except.ok (rest.map (fun row => names.zip row))

/-- The in-memory `_obj_cache`: parsed manifests keyed by request path. -/
abbrev ObjCache := List (Str × List Row)

/-- Result of `_get_cached_csv`: parse result or exception, disk cache,
manifest memo, effects. -/
structure CsvOut where
  result : Except PyErr (List Row)
  cache : CacheState
  objCache : ObjCache
  events : List Ev

/-- `NGDPConnection._get_cached_csv`: reuse the memoized parse when
present; otherwise GET `host ++ path` via `self.get` (whose status code
is never inspected), write the body to the cache under namespace `cdns`
keyed by its digest (`md5hex` models `md5(...).hexdigest()`), parse it,
and memoize the parse on success. -/
def get_cached_csv (net : Net) (md5hex : Str → Str) (host : Str)
    (cache : CacheState) (oc : ObjCache) (path : Str) : CsvOut :=
  match (oc.find? (fun e => e.1 == path)).map (fun e => e.2) with
  | some rows => ⟨Except.ok rows, cache, oc, []⟩
  | none =>
    match parse_csv (csvRows (net (host ++ path)).content) with
    | Except.ok rows =>
      ⟨Except.ok rows,
       cacheWrite cache (chars "cdns") (md5hex (net (host ++ path)).content)
         (net (host ++ path)).content,
       oc ++ [(path, rows)],
       [Ev.fetch (host ++ path), Ev.cwrite (chars "cdns") (md5hex (net (host ++ path)).content)]⟩
    | Except.error e =>
      ⟨Except.error e,
       cacheWrite cache (chars "cdns") (md5hex (net (host ++ path)).content)
         (net (host ++ path)).content,
       oc,
       [Ev.fetch (host ++ path), Ev.cwrite (chars "cdns") (md5hex (net (host ++ path)).content)]⟩

/-- The region-matching loop of the `cdn` property: visit entries in
order, read each visited entry's `Name` (a missing field is a
`KeyError`), and stop at the first entry naming the requested region. -/
def findCdnRow (region : Str) : List Row → Except PyErr (Option Row)
  | [] => Except.ok none
  | c :: rest =>
    match dictGet c (chars "Name") with
    | none => Except.error (PyErr.keyError (chars "Name"))
    | some n => if n = region then Except.ok (some c) else findCdnRow region rest

/-- The host-resolution tail of the `cdn` property, lines 128-136 of
the source: an empty entry list raises `ServerConfigurationError`;
otherwise the loop's entry (or the first entry as fallback) supplies
`Hosts` (first space-separated host) and `Path` for the base URL. -/
def resolveCdnHost (region : Str) (cdns : List Row) : Except PyErr Str :=
  if cdns = [] then Except.error PyErr.serverConfigurationError
  else
    match findCdnRow region cdns with
    | Except.error e => Except.error e
    | Except.ok sel =>
      match dictGet (sel.getD (cdns.headD [])) (chars "Hosts") with
      | none => Except.error (PyErr.keyError (chars "Hosts"))
      | some hosts =>
        match dictGet (sel.getD (cdns.headD [])) (chars "Path") with
        | none => Except.error (PyErr.keyError (chars "Path"))
        | some p =>
          Except.ok (chars "http://" ++ hosts.takeWhile (fun c => !(c == ' '))
            ++ chars "/" ++ p ++ chars "/")

/-- Modelled from the spec (section 4.4, selection rule), for comparison
with `resolveCdnHost`: the first entry whose `Name` equals the region,
or the first entry of the sequence when none matches. -/
def selSpec (region : Str) (entries : List Row) : Row :=
  (entries.find? (fun e => dictGet e (chars "Name") == some region)).getD
    (entries.headD [])

/-- Result of the `cdn` property: resolved base URL or exception, both
caches, the memo field afterwards, and the effects performed. -/
structure CdnOut where
  result : Except PyErr Str
  cache : CacheState
  objCache : ObjCache
  cdnHostMemo : Option Str
  events : List Ev

/-- The recomputation path of the `cdn` property: fetch and parse the
`cdns` manifest, resolve the host, and memoize the URL on success. -/
def conn_cdn_compute (net : Net) (md5hex : Str → Str) (host region : Str)
    (cache : CacheState) (oc : ObjCache) : CdnOut :=
  match get_cached_csv net md5hex host cache oc (chars "/cdns") with
  | ⟨Except.error e, cache2, oc2, evs⟩ => ⟨Except.error e, cache2, oc2, none, evs⟩
  | ⟨Except.ok rows, cache2, oc2, evs⟩ =>
    match resolveCdnHost region rows with
    | Except.error e => ⟨Except.error e, cache2, oc2, none, evs⟩
    | Except.ok url => ⟨Except.ok url, cache2, oc2, some url, evs⟩

/-- The `cdn` property: return the memoized host when the memo is set
and truthy (Python `if not self._cdn_host`), else recompute. -/
def conn_cdn (net : Net) (md5hex : Str → Str) (host region : Str)
    (cache : CacheState) (oc : ObjCache) (memo : Option Str) : CdnOut :=
  match memo with
  | some m =>
    if m = [] then conn_cdn_compute net md5hex host region cache oc
    else ⟨Except.ok m, cache, oc, some m, []⟩
  | none => conn_cdn_compute net md5hex host region cache oc

/-- Shape facts every key/value pair produced by `parseLineL` enjoys:
newline-free, the key is `=`-free and does not start with `#`, and both
ends of key and value are whitespace-stripped. These are exactly the
facts that make one serialized `key = value` line reparse to the same
pair. -/
structure GoodPair (k v : Str) : Prop where
  knl : '\n' ∉ k
  keq : '=' ∉ k
  khd : ∀ c, k.head? = some c → isWs c = false
  khash : k.head? ≠ some '#'
  klast : ∀ c, k.getLast? = some c → isWs c = false
  vnl : '\n' ∉ v
  vhd : ∀ c, v.head? = some c → isWs c = false
  vlast : ∀ c, v.getLast? = some c → isWs c = false

/-- Concrete network for the hash-addressed fetch scenario: every URL
serves a small config blob with status 200. -/
def netCfg : Net := fun _ => ⟨200, chars "root = abc123\nencoding = ff00"⟩

/-- Concrete network answering 404 everywhere. -/
def net404 : Net := fun _ => ⟨404, []⟩

/-- Concrete network serving an empty body with status 200. -/
def netEmptyBody : Net := fun _ => ⟨200, []⟩

/-- Concrete network serving a header-only `cdns` manifest. -/
def netHdrOnly : Net :=
  fun _ => ⟨200, chars "Name!STRING:0|Path!STRING:0|Hosts!STRING:0"⟩

/-- Concrete digest oracle for witnesses (the digest value is irrelevant
to every claim about control flow). -/
def md5c : Str → Str := fun _ => chars "d41d8cd98f00b204e9800998ecf8427e"

/-- Concrete resolved CDN host for witnesses. -/
def hostC : Str := chars "http://blzddist1-a.akamaihd.net/tpr/hs/"

/-- Concrete patch server host for witnesses. -/
def patchHostC : Str := chars "http://eu.patch.battle.net:1119/hsb"

/-- Concrete content hash for witnesses. -/
def hashC : Str := chars "abcdef0123456789"

/-- Concrete `cdns` entry list for the selection witness: one `us`
entry only, so region `eu` falls back to the first entry. -/
def entriesC : List Row :=
  [[(chars "Name", chars "us"), (chars "Path", chars "tpr/hs"),
    (chars "Hosts", chars "h1.cdn.net h2.cdn.net")]]

/-! ### Characterization of the `FlatINI` dictionary built by `readfp` -/

theorem valuesFor_append (k : Str) (ps qs : List (Str × Str)) :
    valuesFor k (ps ++ qs) = valuesFor k ps ++ valuesFor k qs := by
  simp [valuesFor, List.filter_append]

theorem valuesFor_single (k a b : Str) :
    valuesFor k [(a, b)] = if a = k then [b] else [] := by
  by_cases h : a = k <;> simp [valuesFor, h]

theorem valuesFor_ne_nil_iff (k : Str) (ps : List (Str × Str)) :
    valuesFor k ps ≠ [] ↔ k ∈ ps.map (fun p => p.1) := by
  constructor
  · intro h
    match hf : ps.filter (fun p => p.1 == k) with
    | [] =>
      rw [valuesFor, hf] at h
      exact absurd rfl h
    | p :: rest =>
      have hp : p ∈ ps.filter (fun p => p.1 == k) := by
        rw [hf]; exact List.mem_cons_self _ _
      rw [List.mem_filter] at hp
      exact List.mem_map.mpr ⟨p, hp.1, by simpa using hp.2⟩
  · intro hk hnil
    obtain ⟨p, hp, hpk⟩ := List.mem_map.mp hk
    rw [valuesFor, List.map_eq_nil_iff, List.filter_eq_nil_iff] at hnil
    exact (hnil p hp) (by simp [hpk])

theorem firstDedup_nil : firstDedup [] = [] := by
  rw [firstDedup]

theorem firstDedup_cons (k : Str) (rest : List Str) :
    firstDedup (k :: rest) = k :: firstDedup (rest.filter (fun x => !(x == k))) := by
  rw [firstDedup]

theorem mem_firstDedup_fuel (a : Str) :
    ∀ (n : Nat) (l : List Str), l.length ≤ n → (a ∈ firstDedup l ↔ a ∈ l) := by
  intro n
  induction n with
  | zero =>
    intro l hl
    rw [List.length_eq_zero.mp (Nat.le_zero.mp hl)]
    rw [firstDedup_nil]
  | succ n ih =>
    intro l hl
    match l with
    | [] => rw [firstDedup_nil]
    | k :: rest =>
      rw [firstDedup_cons]
      have hr : (rest.filter (fun x => !(x == k))).length ≤ n :=
        le_trans (List.length_filter_le _ _) (Nat.le_of_succ_le_succ hl)
      by_cases hak : a = k
      · subst hak; simp
      · simp [List.mem_cons, ih _ hr, List.mem_filter, hak]

theorem mem_firstDedup (a : Str) (l : List Str) : a ∈ firstDedup l ↔ a ∈ l :=
  mem_firstDedup_fuel a l.length l (le_refl _)

theorem nodup_firstDedup_fuel :
    ∀ (n : Nat) (l : List Str), l.length ≤ n → (firstDedup l).Nodup := by
  intro n
  induction n with
  | zero =>
    intro l hl
    rw [List.length_eq_zero.mp (Nat.le_zero.mp hl), firstDedup_nil]
    exact List.nodup_nil
  | succ n ih =>
    intro l hl
    match l with
    | [] => rw [firstDedup_nil]; exact List.nodup_nil
    | k :: rest =>
      rw [firstDedup_cons]
      have hr : (rest.filter (fun x => !(x == k))).length ≤ n :=
        le_trans (List.length_filter_le _ _) (Nat.le_of_succ_le_succ hl)
      refine List.nodup_cons.mpr ⟨?_, ih _ hr⟩
      intro hmem
      have := (mem_firstDedup _ _).mp hmem
      simp [List.mem_filter] at this

theorem nodup_firstDedup (l : List Str) : (firstDedup l).Nodup :=
  nodup_firstDedup_fuel l.length l (le_refl _)

theorem firstDedup_append_single_fuel :
    ∀ (n : Nat) (l : List Str), l.length ≤ n → ∀ a : Str,
      firstDedup (l ++ [a]) = if a ∈ l then firstDedup l else firstDedup l ++ [a] := by
  intro n
  induction n with
  | zero =>
    intro l hl a
    rw [List.length_eq_zero.mp (Nat.le_zero.mp hl)]
    simp [firstDedup_cons, firstDedup_nil]
  | succ n ih =>
    intro l hl a
    match l with
    | [] => simp [firstDedup_cons, firstDedup_nil]
    | k :: rest =>
      have hr : (rest.filter (fun x => !(x == k))).length ≤ n :=
        le_trans (List.length_filter_le _ _) (Nat.le_of_succ_le_succ hl)
      by_cases hak : a = k
      · subst hak
        simp only [List.cons_append, firstDedup_cons, List.filter_append]
        simp [firstDedup_cons]
      · simp only [List.cons_append, firstDedup_cons, List.filter_append]
        have hfa : List.filter (fun x => !(x == k)) [a] = [a] := by simp [hak]
        rw [hfa, ih _ hr a]
        have hmf : a ∈ rest.filter (fun x => !(x == k)) ↔ a ∈ rest := by
          simp [List.mem_filter, hak]
        by_cases har : a ∈ rest
        · simp [hmf, har, List.mem_cons, hak]
        · simp [hmf, har, List.mem_cons, hak]

theorem firstDedup_append_single (l : List Str) (a : Str) :
    firstDedup (l ++ [a]) = if a ∈ l then firstDedup l else firstDedup l ++ [a] :=
  firstDedup_append_single_fuel l.length l (le_refl _) a

theorem upd_mkVal (vals : List Str) (v : Str) (h : vals ≠ []) :
    (match mkVal vals with
     | INIVal.scalar s => INIVal.multi [s, v]
     | INIVal.multi l => INIVal.multi (l ++ [v])) = mkVal (vals ++ [v]) := by
  match vals with
  | [] => exact absurd rfl h
  | [a] => rfl
  | a :: b :: t => rfl

theorem canon_any (ps : List (Str × Str)) (k : Str) :
    (canon ps).any (fun p => p.1 == k) = (decide (k ∈ ps.map (fun p => p.1))) := by
  by_cases hk : k ∈ ps.map (fun p => p.1)
  · rw [decide_eq_true hk, List.any_eq_true]
    refine ⟨(k, mkVal (valuesFor k ps)), ?_, by simp⟩
    simp only [canon, List.mem_map]
    exact ⟨k, (mem_firstDedup _ _).mpr hk, rfl⟩
  · rw [decide_eq_false hk, List.any_eq_false]
    intro p hp
    simp only [canon, List.mem_map] at hp
    obtain ⟨k', hk', rfl⟩ := hp
    have hne : k' ≠ k := fun h => hk (h ▸ (mem_firstDedup _ _).mp hk')
    simp [hne]

theorem canon_append_single (ps : List (Str × Str)) (k v : Str) :
    canon (ps ++ [(k, v)]) = setItem (canon ps) k v := by
  by_cases hk : k ∈ ps.map (fun p => p.1)
  · rw [setItem, canon_any, decide_eq_true hk, if_pos rfl]
    have hkeys : (ps ++ [(k, v)]).map (fun p => p.1) = ps.map (fun p => p.1) ++ [k] := by
      simp
    rw [canon, hkeys, firstDedup_append_single, if_pos hk, canon, List.map_map]
    refine List.map_congr_left ?_
    intro a _
    simp only [Function.comp]
    by_cases hak : a = k
    · subst hak
      rw [if_pos (by simp)]
      rw [valuesFor_append, valuesFor_single, if_pos rfl]
      rw [upd_mkVal _ _ ((valuesFor_ne_nil_iff a ps).mpr hk)]
    · rw [if_neg (by simpa using hak)]
      rw [valuesFor_append, valuesFor_single, if_neg (Ne.symm hak), List.append_nil]
  · rw [setItem, canon_any, decide_eq_false hk, if_neg Bool.false_ne_true]
    have hkeys : (ps ++ [(k, v)]).map (fun p => p.1) = ps.map (fun p => p.1) ++ [k] := by
      simp
    rw [canon, hkeys, firstDedup_append_single, if_neg hk, List.map_append, canon]
    congr 1
    · refine List.map_congr_left ?_
      intro a ha
      have hak : a ≠ k := fun h => hk (h ▸ (mem_firstDedup _ _).mp ha)
      rw [valuesFor_append, valuesFor_single, if_neg (Ne.symm hak), List.append_nil]
    · have : valuesFor k ps = [] := by
        by_contra hne
        exact hk ((valuesFor_ne_nil_iff k ps).mp hne)
      simp [valuesFor_append, valuesFor_single, this, mkVal]

theorem buildDict_eq_canon (ps : List (Str × Str)) : buildDict ps = canon ps := by
  induction ps using List.reverseRecOn with
  | nil => simp [buildDict, canon, firstDedup_nil]
  | append_singleton ps p ih =>
    obtain ⟨k, v⟩ := p
    rw [buildDict, List.foldl_append, List.foldl_cons, List.foldl_nil]
    rw [show List.foldl (fun d p => setItem d p.1 p.2) [] ps = buildDict ps from rfl, ih]
    exact (canon_append_single ps k v).symm

theorem readfpL_eq (lines : List Str) :
    ∀ d, readfpL d lines = (parsedPairs lines).foldl (fun d p => setItem d p.1 p.2) d := by
  induction lines with
  | nil => intro d; rfl
  | cons l rest ih =>
    intro d
    rw [readfpL, List.foldl_cons, parsedPairs, List.filterMap_cons]
    cases h : parseLineL l with
    | none => exact ih d
    | some p => exact ih (setItem d p.1 p.2)

theorem parseLines_eq_canon (lines : List Str) :
    parseLines lines = canon (parsedPairs lines) := by
  rw [parseLines, readfpL_eq]
  exact buildDict_eq_canon _

theorem parseBlob_eq_canon (b : Str) : parseBlob b = canon (blobPairs b) :=
  parseLines_eq_canon _

theorem find?_map_key (l : List Str) (f : Str → INIVal) (k : Str) :
    (l.map (fun a => (a, f a))).find? (fun p => p.1 == k) =
      if k ∈ l then some (k, f k) else none := by
  induction l with
  | nil => simp
  | cons a rest ih =>
    by_cases hak : a = k
    · subst hak
      rw [List.map_cons, List.find?_cons_of_pos _ (by simp)]
      simp
    · have hka : ¬(k = a) := fun h => hak h.symm
      rw [List.map_cons, List.find?_cons_of_neg _ (by simpa using hak), ih]
      simp [List.mem_cons, hka]

theorem getItem?_canon (ps : List (Str × Str)) (k : Str) :
    getItem? (canon ps) k =
      if valuesFor k ps = [] then none else some (mkVal (valuesFor k ps)) := by
  rw [getItem?, canon, find?_map_key]
  by_cases hk : k ∈ firstDedup (ps.map (fun p => p.1))
  · rw [if_pos hk]
    have hne : valuesFor k ps ≠ [] :=
      (valuesFor_ne_nil_iff k ps).mpr ((mem_firstDedup _ _).mp hk)
    rw [if_neg hne]
    rfl
  · rw [if_neg hk]
    have hnil : valuesFor k ps = [] := by
      by_contra h
      exact hk ((mem_firstDedup _ _).mpr ((valuesFor_ne_nil_iff k ps).mp h))
    rw [if_pos hnil]
    rfl

theorem entryItems_mkVal (k : Str) (vs : List Str) :
    (match (k, mkVal vs).2 with
     | INIVal.scalar s => [((k, mkVal vs).1, s)]
     | INIVal.multi l => l.map (fun v => ((k, mkVal vs).1, v))) =
      vs.map (fun v => (k, v)) := by
  match vs with
  | [] => rfl
  | [a] => rfl
  | a :: b :: t => rfl

theorem itemsFlat_canon (ps : List (Str × Str)) :
    itemsFlat (canon ps) =
      (firstDedup (ps.map (fun p => p.1))).flatMap
        (fun k => (valuesFor k ps).map (fun v => (k, v))) := by
  rw [canon]
  generalize firstDedup (ps.map (fun p => p.1)) = ks
  induction ks with
  | nil => rfl
  | cons a rest ih =>
    rw [List.map_cons, itemsFlat, List.flatMap_cons, List.flatMap_cons]
    congr 1
    exact entryItems_mkVal a _

theorem filter_length_split (p : (Str × Str) → Bool) (l : List (Str × Str)) :
    (l.filter p).length + (l.filter (fun a => !(p a))).length = l.length := by
  induction l with
  | nil => rfl
  | cons a rest ih =>
    by_cases h : p a = true
    · simp only [List.filter_cons, h, if_true, Bool.not_true, Bool.false_eq_true,
        if_false, List.length_cons]
      omega
    · rw [Bool.not_eq_true] at h
      simp only [List.filter_cons, h, Bool.false_eq_true, if_false, Bool.not_false,
        if_true, List.length_cons]
      omega

theorem sum_filter_over_keys :
    ∀ (ks : List Str) (ps : List (Str × Str)), ks.Nodup → (∀ p ∈ ps, p.1 ∈ ks) →
      (ks.map (fun k => (ps.filter (fun p => p.1 == k)).length)).sum = ps.length := by
  intro ks
  induction ks with
  | nil =>
    intro ps _ hall
    match ps with
    | [] => rfl
    | p :: _ => exact absurd (hall p (List.mem_cons_self _ _)) (List.not_mem_nil _)
  | cons k rest ih =>
    intro ps hnd hall
    have hnd' := List.nodup_cons.mp hnd
    rw [List.map_cons, List.sum_cons]
    have hrw : rest.map (fun k' => (ps.filter (fun p => p.1 == k')).length)
        = rest.map (fun k' =>
            (((ps.filter (fun p => !(p.1 == k)))).filter (fun p => p.1 == k')).length) := by
      refine List.map_congr_left ?_
      intro a ha
      have hak : a ≠ k := fun h => hnd'.1 (h ▸ ha)
      rw [List.filter_filter]
      congr 1
      refine List.filter_congr ?_
      intro p _
      by_cases hpa : p.1 = a
      · simp [hpa, hak]
      · simp [hpa]
    have hmem : ∀ p ∈ ps.filter (fun p => !(p.1 == k)), p.1 ∈ rest := by
      intro p hp
      rw [List.mem_filter] at hp
      have hin := hall p hp.1
      rw [List.mem_cons] at hin
      rcases hin with h | h
      · exfalso
        have := hp.2
        simp [h] at this
      · exact h
    rw [hrw, ih _ hnd'.2 hmem]
    exact filter_length_split _ ps

theorem length_itemsFlat_canon (ps : List (Str × Str)) :
    (itemsFlat (canon ps)).length = ps.length := by
  rw [itemsFlat_canon, List.length_flatMap]
  simp only [Function.comp_def, List.length_map, valuesFor]
  refine sum_filter_over_keys _ _ (nodup_firstDedup _) ?_
  intro p hp
  exact (mem_firstDedup _ _).mpr (List.mem_map.mpr ⟨p, hp, rfl⟩)

/-! ### String lemmas: `strip`, `takeWhile`, `dropWhile`, split and join -/

theorem rstrip_cons_nil (c : Char) (rest : Str) (h : rstrip rest = []) :
    rstrip (c :: rest) = if isWs c then [] else [c] := by
  rw [rstrip, h]

theorem rstrip_cons_ne (c : Char) (rest : Str) (h : rstrip rest ≠ []) :
    rstrip (c :: rest) = c :: rstrip rest := by
  rw [rstrip]
  cases hr : rstrip rest with
  | nil => exact absurd hr h
  | cons x t => rfl

theorem rstrip_head? (l : Str) (h : rstrip l ≠ []) : (rstrip l).head? = l.head? := by
  match l with
  | [] => exact absurd rfl h
  | c :: rest =>
    by_cases hr : rstrip rest = []
    · rw [rstrip_cons_nil c rest hr] at h ⊢
      by_cases hw : isWs c = true
      · rw [if_pos hw] at h; exact absurd rfl h
      · rw [if_neg hw]; rfl
    · rw [rstrip_cons_ne c rest hr]; rfl

theorem getLast?_cons_of_ne (a : Char) (r : Str) (h : r ≠ []) :
    (a :: r).getLast? = r.getLast? := by
  match r with
  | [] => exact absurd rfl h
  | x :: t => rfl

theorem rstrip_getLast? (l : Str) : ∀ c, (rstrip l).getLast? = some c → isWs c = false := by
  induction l with
  | nil => intro c h; simp [rstrip] at h
  | cons a rest ih =>
    intro c h
    by_cases hr : rstrip rest = []
    · rw [rstrip_cons_nil a rest hr] at h
      by_cases hw : isWs a = true
      · rw [if_pos hw] at h; simp at h
      · rw [if_neg hw] at h
        have hac : a = c := by simpa using h
        subst hac
        exact Bool.not_eq_true _ ▸ hw
    · rw [rstrip_cons_ne a rest hr, getLast?_cons_of_ne a _ hr] at h
      exact ih c h

theorem rstrip_sublist (l : Str) : (rstrip l).Sublist l := by
  induction l with
  | nil => simp [rstrip]
  | cons a rest ih =>
    by_cases hr : rstrip rest = []
    · rw [rstrip_cons_nil a rest hr]
      by_cases hw : isWs a = true
      · rw [if_pos hw]; exact List.nil_sublist _
      · rw [if_neg hw]
        exact List.Sublist.cons₂ a (List.nil_sublist rest)
    · rw [rstrip_cons_ne a rest hr]
      exact List.Sublist.cons₂ a ih

theorem rstrip_eq_self (l : Str) (h : ∀ c, l.getLast? = some c → isWs c = false) :
    rstrip l = l := by
  induction l with
  | nil => rfl
  | cons a rest ih =>
    by_cases hr : rest = []
    · subst hr
      have ha := h a rfl
      rw [rstrip_cons_nil a [] rfl, ha]
      simp
    · have hrr : rstrip rest = rest :=
        ih (fun c hc => h c (by rw [getLast?_cons_of_ne a rest hr]; exact hc))
      rw [rstrip_cons_ne a rest (by rw [hrr]; exact hr), hrr]

theorem rstrip_append_single (m : Str) (c : Char) :
    rstrip (m ++ [c]) = if isWs c then rstrip m else m ++ [c] := by
  induction m with
  | nil =>
    cases hw : isWs c <;> simp [rstrip_cons_nil c [] rfl, hw, rstrip]
  | cons a m' ih =>
    cases hw : isWs c
    · have h1 : rstrip (m' ++ [c]) = m' ++ [c] := by rw [ih, hw]; simp
      rw [List.cons_append, rstrip_cons_ne a _ (by rw [h1]; simp), h1]
      simp [hw]
    · have h1 : rstrip (m' ++ [c]) = rstrip m' := by rw [ih, hw]; simp
      by_cases hr : rstrip m' = []
      · rw [List.cons_append, rstrip_cons_nil a _ (h1.trans hr),
          rstrip_cons_nil a m' hr]
        simp [hw]
      · rw [List.cons_append, rstrip_cons_ne a _ (by rw [h1]; exact hr), h1,
          rstrip_cons_ne a m' hr]
        simp [hw]

theorem rstrip_append_of_ne_nil (m v : Str) (h : rstrip v ≠ []) :
    rstrip (m ++ v) = m ++ rstrip v := by
  induction m with
  | nil => simp
  | cons a m' ih =>
    have h1 : rstrip (m' ++ v) ≠ [] := by
      rw [ih]
      intro hh
      rw [List.append_eq_nil] at hh
      exact h hh.2
    rw [List.cons_append, rstrip_cons_ne a _ h1, ih]
    rfl

theorem dropWhile_head?_false (p : Char → Bool) (l : Str) :
    ∀ c, (l.dropWhile p).head? = some c → p c = false := by
  induction l with
  | nil => intro c h; simp [List.dropWhile] at h
  | cons a rest ih =>
    intro c h
    rw [List.dropWhile_cons] at h
    by_cases hp : p a = true
    · rw [if_pos hp] at h; exact ih c h
    · rw [if_neg hp] at h
      have hac : a = c := by simpa using h
      subst hac
      exact Bool.not_eq_true _ ▸ hp

theorem dropWhile_eq_self_of_head (p : Char → Bool) (l : Str)
    (h : ∀ c, l.head? = some c → p c = false) : l.dropWhile p = l := by
  match l with
  | [] => rfl
  | a :: rest =>
    have ha := h a rfl
    rw [List.dropWhile_cons, ha]
    simp

theorem takeWhile_head? (p : Char → Bool) (l : Str) (c : Char)
    (h : (l.takeWhile p).head? = some c) : l.head? = some c := by
  match l with
  | [] => simp [List.takeWhile] at h
  | a :: rest =>
    rw [List.takeWhile_cons] at h
    by_cases hp : p a = true
    · rw [if_pos hp] at h
      simpa using h
    · rw [if_neg hp] at h
      simp at h

theorem stripL_head? (l : Str) (c : Char) (h : (stripL l).head? = some c) :
    isWs c = false := by
  rw [stripL] at h
  have hne : rstrip (l.dropWhile isWs) ≠ [] := by
    intro hh; rw [hh] at h; simp at h
  rw [rstrip_head? _ hne] at h
  exact dropWhile_head?_false isWs _ c h

theorem stripL_getLast? (l : Str) (c : Char) (h : (stripL l).getLast? = some c) :
    isWs c = false := rstrip_getLast? _ c h

theorem stripL_sublist (l : Str) : (stripL l).Sublist l :=
  (rstrip_sublist _).trans (List.dropWhile_sublist _)

theorem stripL_eq_self (l : Str)
    (hh : ∀ c, l.head? = some c → isWs c = false)
    (hl : ∀ c, l.getLast? = some c → isWs c = false) : stripL l = l := by
  rw [stripL, dropWhile_eq_self_of_head isWs l hh, rstrip_eq_self l hl]

theorem stripL_head?_eq (a : Str) (hH : ∀ c, a.head? = some c → isWs c = false)
    (hne : stripL a ≠ []) : (stripL a).head? = a.head? := by
  rw [stripL] at hne ⊢
  rw [dropWhile_eq_self_of_head isWs a hH] at hne ⊢
  exact rstrip_head? a hne

theorem head?_append_of_ne_nil (a b : Str) (h : a ≠ []) : (a ++ b).head? = a.head? := by
  match a with
  | [] => exact absurd rfl h
  | x :: xs => rfl

theorem takeWhile_append_of_all (p : Char → Bool) :
    ∀ (a rest : Str) (x : Char), (∀ c ∈ a, p c = true) → p x = false →
      (a ++ x :: rest).takeWhile p = a ∧ (a ++ x :: rest).dropWhile p = x :: rest := by
  intro a
  induction a with
  | nil =>
    intro rest x _ hx
    constructor
    · rw [List.nil_append, List.takeWhile_cons, hx]; simp
    · rw [List.nil_append, List.dropWhile_cons, hx]; simp
  | cons c a' ih =>
    intro rest x hall hx
    have hc : p c = true := hall c (List.mem_cons_self _ _)
    have ih' := ih rest x (fun d hd => hall d (List.mem_cons_of_mem _ hd)) hx
    constructor
    · rw [List.cons_append, List.takeWhile_cons, hc]
      simp [ih'.1]
    · rw [List.cons_append, List.dropWhile_cons, hc]
      simp [ih'.2]

theorem splitChar_not_mem (c : Char) (l : Str) (h : c ∉ l) : splitChar c l = [l] := by
  induction l with
  | nil => rfl
  | cons x xs ih =>
    have hxc : ¬(x = c) := fun he => h (he ▸ List.mem_cons_self x xs)
    have hcx : c ∉ xs := fun hm => h (List.mem_cons_of_mem _ hm)
    rw [splitChar, if_neg hxc, ih hcx]

theorem splitChar_append_cons (c : Char) (a rest : Str) (h : c ∉ a) :
    splitChar c (a ++ c :: rest) = a :: splitChar c rest := by
  induction a with
  | nil =>
    rw [List.nil_append, splitChar, if_pos rfl]
  | cons x xs ih =>
    have hxc : ¬(x = c) := fun he => h (he ▸ List.mem_cons_self x xs)
    have hcx : c ∉ xs := fun hm => h (List.mem_cons_of_mem _ hm)
    rw [List.cons_append, splitChar, if_neg hxc, ih hcx]

theorem mem_splitChar_not_mem (c : Char) :
    ∀ (l : Str) (p : Str), p ∈ splitChar c l → c ∉ p := by
  intro l
  induction l with
  | nil =>
    intro p hp
    have : p = [] := by simpa [splitChar] using hp
    subst this
    simp
  | cons x xs ih =>
    intro p hp
    rw [splitChar] at hp
    by_cases hxc : x = c
    · rw [if_pos hxc] at hp
      rcases List.mem_cons.mp hp with h | h
      · subst h; simp
      · exact ih p h
    · rw [if_neg hxc] at hp
      cases hs : splitChar c xs with
      | nil =>
        rw [hs] at hp
        have hp1 : p = [x] := by simpa using hp
        subst hp1
        simp only [List.mem_singleton]
        exact fun he => hxc he.symm
      | cons hd tl =>
        rw [hs] at hp
        rcases List.mem_cons.mp hp with h | h
        · subst h
          have hhd : c ∉ hd := ih hd (by rw [hs]; exact List.mem_cons_self _ _)
          intro hc
          rcases List.mem_cons.mp hc with h2 | h2
          · exact hxc h2.symm
          · exact hhd h2
        · exact ih p (by rw [hs]; exact List.mem_cons_of_mem _ h)

theorem splitChar_joinLines :
    ∀ (ls : List Str), ls ≠ [] → (∀ l ∈ ls, '\n' ∉ l) →
      splitChar '\n' (joinLines ls) = ls := by
  intro ls
  induction ls with
  | nil => intro h _; exact absurd rfl h
  | cons l rest ih =>
    intro _ hall
    cases rest with
    | nil =>
      exact splitChar_not_mem _ _ (hall l (List.mem_cons_self _ _))
    | cons r rest' =>
      show splitChar '\n' (l ++ '\n' :: joinLines (r :: rest')) = l :: r :: rest'
      rw [splitChar_append_cons _ _ _ (hall l (List.mem_cons_self _ _)),
        ih (by simp) (fun x hx => hall x (List.mem_cons_of_mem _ hx))]

/-! ### Parsed pairs are well-shaped, and a serialized line reparses -/

theorem parseLineL_eq_some (line k v : Str) (h : parseLineL line = some (k, v)) :
    stripL line ≠ [] ∧ (stripL line).head? ≠ some '#' ∧
    k = stripL ((stripL line).takeWhile (fun c => !(c == '='))) ∧
    v = stripL (((stripL line).dropWhile (fun c => !(c == '='))).tail) := by
  unfold parseLineL at h
  split at h
  case isTrue => exact absurd h (by simp)
  case isFalse hc1 =>
    split at h
    case isTrue => exact absurd h (by simp)
    case isFalse hc2 =>
      have h2 := Option.some_inj.mp h
      exact ⟨hc1, hc2, (congrArg Prod.fst h2).symm, (congrArg Prod.snd h2).symm⟩

theorem mem_takeWhile_pred (p : Char → Bool) :
    ∀ (l : Str) (c : Char), c ∈ l.takeWhile p → p c = true := by
  intro l
  induction l with
  | nil => intro c h; simp [List.takeWhile] at h
  | cons a rest ih =>
    intro c h
    rw [List.takeWhile_cons] at h
    by_cases hp : p a = true
    · rw [if_pos hp] at h
      rcases List.mem_cons.mp h with h1 | h1
      · subst h1; exact hp
      · exact ih c h1
    · rw [if_neg hp] at h
      simp at h

theorem parseLineL_good (line k v : Str) (hnl : '\n' ∉ line)
    (h : parseLineL line = some (k, v)) : GoodPair k v := by
  obtain ⟨hne, hhash, hk, hv⟩ := parseLineL_eq_some line k v h
  have htnl : '\n' ∉ stripL line := fun hc => hnl ((stripL_sublist line).subset hc)
  have hksub : (stripL ((stripL line).takeWhile (fun c => !(c == '=')))).Sublist
      ((stripL line).takeWhile (fun c => !(c == '='))) := stripL_sublist _
  have hasubt : ((stripL line).takeWhile (fun c => !(c == '='))).Sublist (stripL line) :=
    List.takeWhile_sublist _
  have hmsub : ((((stripL line).dropWhile (fun c => !(c == '='))).tail)).Sublist (stripL line) :=
    (List.tail_sublist _).trans (List.dropWhile_sublist _)
  refine ⟨?_, ?_, ?_, ?_, ?_, ?_, ?_, ?_⟩
  · rw [hk]
    exact fun hc => htnl (hasubt.subset (hksub.subset hc))
  · rw [hk]
    intro hc
    have := mem_takeWhile_pred _ _ '=' (hksub.subset hc)
    simp at this
  · intro c hc
    rw [hk] at hc
    exact stripL_head? _ c hc
  · intro hc
    have hkne : k ≠ [] := by
      intro he; rw [he] at hc; simp at hc
    rw [hk] at hc
    have hhead : ∀ c, ((stripL line).takeWhile (fun c => !(c == '='))).head? = some c →
        isWs c = false :=
      fun c hcc => stripL_head? line c (takeWhile_head? _ _ c hcc)
    have heq := stripL_head?_eq _ hhead (by rw [← hk]; exact hkne)
    rw [heq] at hc
    exact hhash (takeWhile_head? _ _ '#' hc)
  · intro c hc
    rw [hk] at hc
    exact stripL_getLast? _ c hc
  · rw [hv]
    exact fun hc => htnl (hmsub.subset ((stripL_sublist _).subset hc))
  · intro c hc
    rw [hv] at hc
    exact stripL_head? _ c hc
  · intro c hc
    rw [hv] at hc
    exact stripL_getLast? _ c hc

theorem stripL_append_space (k : Str)
    (hhd : ∀ c, k.head? = some c → isWs c = false)
    (hlast : ∀ c, k.getLast? = some c → isWs c = false) :
    stripL (k ++ [' ']) = k := by
  match k with
  | [] => decide
  | kc :: kt =>
    have hdw : ((kc :: kt : Str) ++ [' ']).dropWhile isWs = (kc :: kt) ++ [' '] := by
      refine dropWhile_eq_self_of_head isWs _ ?_
      intro c hc
      rw [head?_append_of_ne_nil _ _ (by simp)] at hc
      exact hhd c hc
    have hr := rstrip_append_single (kc :: kt : Str) ' '
    rw [if_pos (by decide)] at hr
    rw [stripL, hdw, hr, rstrip_eq_self _ hlast]

theorem parse_serLine (k v : Str) (g : GoodPair k v) :
    parseLineL (serLine (k, v)) = some (k, v) := by
  cases k with
  | nil =>
    cases v with
    | nil => decide
    | cons vc vt =>
      have hrv : rstrip (vc :: vt) = vc :: vt := rstrip_eq_self _ g.vlast
      have hdv : (vc :: vt : Str).dropWhile isWs = vc :: vt :=
        dropWhile_eq_self_of_head isWs _ g.vhd
      have hne : rstrip (vc :: vt : Str) ≠ [] := by rw [hrv]; simp
      have h1 : rstrip (' ' :: vc :: vt) = ' ' :: vc :: vt := by
        rw [rstrip_cons_ne _ _ hne, hrv]
      have h2 : rstrip ('=' :: ' ' :: vc :: vt) = '=' :: ' ' :: vc :: vt := by
        rw [rstrip_cons_ne _ _ (by rw [h1]; simp), h1]
      have hT : stripL (serLine (([] : Str), vc :: vt)) = '=' :: ' ' :: vc :: vt := by
        show stripL (' ' :: '=' :: ' ' :: vc :: vt) = _
        rw [stripL, List.dropWhile_cons, if_pos (by decide), List.dropWhile_cons,
          if_neg (by decide), h2]
      have hx : ¬((('=' :: ' ' :: vc :: vt : Str)).head? = some '#') := by
        intro hcc
        simp at hcc
      have hkey : stripL (('=' :: ' ' :: vc :: vt).takeWhile (fun c => !(c == '='))) = [] := by
        rw [List.takeWhile_cons, if_neg (by decide)]
        rfl
      have hval : stripL ((('=' :: ' ' :: vc :: vt).dropWhile (fun c => !(c == '='))).tail)
          = vc :: vt := by
        rw [List.dropWhile_cons, if_neg (by decide)]
        show stripL (' ' :: vc :: vt) = vc :: vt
        rw [stripL, List.dropWhile_cons, if_pos (by decide), hdv, hrv]
      rw [parseLineL, hT, if_neg (by simp), if_neg hx, hkey, hval]
  | cons kc kt =>
    cases v with
    | nil =>
      have hkne : (kc :: kt : Str) ≠ [] := by simp
      have h2 : rstrip ((kc :: kt : Str) ++ [' ', '=']) = (kc :: kt) ++ [' ', '='] := by
        have hr := rstrip_append_single ((kc :: kt : Str) ++ [' ']) '='
        rw [if_neg (by decide)] at hr
        rw [show ((kc :: kt : Str) ++ [' ']) ++ ['='] = (kc :: kt) ++ [' ', '='] from by
          simp] at hr
        exact hr
      have h1 : rstrip ((kc :: kt : Str) ++ [' ', '=', ' ']) = (kc :: kt) ++ [' ', '='] := by
        have hr := rstrip_append_single ((kc :: kt : Str) ++ [' ', '=']) ' '
        rw [if_pos (by decide)] at hr
        rw [show ((kc :: kt : Str) ++ [' ', '=']) ++ [' '] = (kc :: kt) ++ [' ', '=', ' '] from by
          simp] at hr
        rw [hr, h2]
      have hdw : ((kc :: kt : Str) ++ [' ', '=', ' ']).dropWhile isWs
          = (kc :: kt) ++ [' ', '=', ' '] := by
        refine dropWhile_eq_self_of_head isWs _ ?_
        intro c hc
        rw [head?_append_of_ne_nil _ _ hkne] at hc
        exact g.khd c hc
      have hT : stripL (serLine ((kc :: kt : Str), ([] : Str))) = (kc :: kt) ++ [' ', '='] := by
        show stripL ((kc :: kt) ++ ' ' :: '=' :: ' ' :: []) = _
        rw [stripL, hdw, h1]
      have hall : ∀ c ∈ (kc :: kt : Str) ++ [' '], (fun c => !(c == '=')) c = true := by
        intro c hc
        rcases List.mem_append.mp hc with h | h
        · by_cases he : c = '='
          · exact absurd (he ▸ h) g.keq
          · simp [he]
        · have hsp : c = ' ' := by simpa using h
          subst hsp; decide
      have hsplit := takeWhile_append_of_all (fun c => !(c == '=')) ((kc :: kt : Str) ++ [' '])
        [] '=' hall (by decide)
      rw [show ((kc :: kt : Str) ++ [' ']) ++ '=' :: [] = (kc :: kt) ++ [' ', '='] from by
        simp] at hsplit
      have hkey : stripL (((kc :: kt : Str) ++ [' ', '=']).takeWhile (fun c => !(c == '='))) =
          kc :: kt := by
        rw [hsplit.1]
        exact stripL_append_space _ g.khd g.klast
      have hval : stripL ((((kc :: kt : Str) ++ [' ', '=']).dropWhile
          (fun c => !(c == '='))).tail) = [] := by
        rw [hsplit.2]
        rfl
      have hx : ¬(((kc :: kt : Str) ++ [' ', '=']).head? = some '#') := by
        rw [head?_append_of_ne_nil _ _ hkne]
        intro hcc
        have h3 : kc = '#' := by simpa using hcc
        exact g.khash (by simp [h3])
      rw [parseLineL, hT, if_neg (by simp), if_neg hx, hkey, hval]
    | cons vc vt =>
      have hrv : rstrip (vc :: vt) = vc :: vt := rstrip_eq_self _ g.vlast
      have hdv : (vc :: vt : Str).dropWhile isWs = vc :: vt :=
        dropWhile_eq_self_of_head isWs _ g.vhd
      have hvne : rstrip (vc :: vt : Str) ≠ [] := by rw [hrv]; simp
      have hkne : (kc :: kt : Str) ≠ [] := by simp
      have hT : stripL (serLine ((kc :: kt : Str), vc :: vt)) =
          (kc :: kt) ++ ' ' :: '=' :: ' ' :: vc :: vt := by
        show stripL ((kc :: kt) ++ ' ' :: '=' :: ' ' :: vc :: vt) = _
        have hdw : ((kc :: kt : Str) ++ ' ' :: '=' :: ' ' :: vc :: vt).dropWhile isWs
            = (kc :: kt) ++ ' ' :: '=' :: ' ' :: vc :: vt := by
          refine dropWhile_eq_self_of_head isWs _ ?_
          intro c hc
          rw [head?_append_of_ne_nil _ _ hkne] at hc
          exact g.khd c hc
        have hra : rstrip ((kc :: kt : Str) ++ ' ' :: '=' :: ' ' :: vc :: vt)
            = ((kc :: kt) ++ [' ', '=', ' ']) ++ rstrip (vc :: vt) := by
          rw [show (kc :: kt : Str) ++ ' ' :: '=' :: ' ' :: vc :: vt
              = ((kc :: kt) ++ [' ', '=', ' ']) ++ (vc :: vt) from by simp]
          exact rstrip_append_of_ne_nil _ _ hvne
        rw [stripL, hdw, hra, hrv]
        simp
      have hall : ∀ c ∈ (kc :: kt : Str) ++ [' '], (fun c => !(c == '=')) c = true := by
        intro c hc
        rcases List.mem_append.mp hc with h | h
        · by_cases he : c = '='
          · exact absurd (he ▸ h) g.keq
          · simp [he]
        · have hsp : c = ' ' := by simpa using h
          subst hsp; decide
      have hsplit := takeWhile_append_of_all (fun c => !(c == '=')) ((kc :: kt : Str) ++ [' '])
        (' ' :: vc :: vt) '=' hall (by decide)
      rw [show ((kc :: kt : Str) ++ [' ']) ++ '=' :: ' ' :: vc :: vt
          = (kc :: kt) ++ ' ' :: '=' :: ' ' :: vc :: vt from by simp] at hsplit
      have hkey : stripL (((kc :: kt : Str) ++ ' ' :: '=' :: ' ' :: vc :: vt).takeWhile
          (fun c => !(c == '='))) = kc :: kt := by
        rw [hsplit.1]
        exact stripL_append_space _ g.khd g.klast
      have hval : stripL ((((kc :: kt : Str) ++ ' ' :: '=' :: ' ' :: vc :: vt).dropWhile
          (fun c => !(c == '='))).tail) = vc :: vt := by
        rw [hsplit.2]
        show stripL (' ' :: vc :: vt) = vc :: vt
        rw [stripL, List.dropWhile_cons, if_pos (by decide), hdv, hrv]
      have hx : ¬(((kc :: kt : Str) ++ ' ' :: '=' :: ' ' :: vc :: vt).head? = some '#') := by
        rw [head?_append_of_ne_nil _ _ hkne]
        intro hcc
        have h3 : kc = '#' := by simpa using hcc
        exact g.khash (by simp [h3])
      rw [parseLineL, hT, if_neg (by simp), if_neg hx, hkey, hval]

/-! ### Round-trip assembly -/

theorem filterMap_parseLineL_serLine (items : List (Str × Str))
    (hall : ∀ p ∈ items, GoodPair p.1 p.2) :
    (items.map serLine).filterMap parseLineL = items := by
  induction items with
  | nil => rfl
  | cons p rest ih =>
    rw [List.map_cons, List.filterMap_cons]
    have hg := hall p (List.mem_cons_self _ _)
    rw [parse_serLine p.1 p.2 hg, ih (fun q hq => hall q (List.mem_cons_of_mem _ hq))]

theorem itemsFlat_parseBlob_good (b : Str) :
    ∀ p ∈ itemsFlat (parseBlob b), GoodPair p.1 p.2 := by
  intro p hp
  rw [parseBlob_eq_canon, itemsFlat_canon, List.mem_flatMap] at hp
  obtain ⟨k, _, hpk⟩ := hp
  rw [List.mem_map] at hpk
  obtain ⟨v, hv, rfl⟩ := hpk
  rw [valuesFor, List.mem_map] at hv
  obtain ⟨q, hq, hq2⟩ := hv
  rw [List.mem_filter] at hq
  have hqk : q.1 = k := by simpa using hq.2
  obtain ⟨line, hline, hparse⟩ := List.mem_filterMap.mp hq.1
  have hnl : '\n' ∉ line := mem_splitChar_not_mem '\n' b line hline
  have hgq : GoodPair q.1 q.2 := parseLineL_good line q.1 q.2 hnl hparse
  rw [hqk, hq2] at hgq
  exact hgq

theorem valuesFor_flatMap_group (g : Str → List Str) :
    ∀ (ks : List Str), ks.Nodup → ∀ k ∈ ks,
      valuesFor k (ks.flatMap (fun a => (g a).map (fun v => (a, v)))) = g k := by
  intro ks
  induction ks with
  | nil => intro _ k hk; simp at hk
  | cons a rest ih =>
    intro hnd k hk
    have hnd' := List.nodup_cons.mp hnd
    rw [List.flatMap_cons, valuesFor_append]
    rcases List.mem_cons.mp hk with hka | hkr
    · subst hka
      have hfst : valuesFor k ((g k).map (fun v => (k, v))) = g k := by
        rw [valuesFor, List.filter_map]
        simp [Function.comp]
      have hsnd : valuesFor k (rest.flatMap (fun a => (g a).map (fun v => (a, v)))) = [] := by
        rw [valuesFor, List.map_eq_nil_iff, List.filter_eq_nil_iff]
        intro p hp
        rw [List.mem_flatMap] at hp
        obtain ⟨b', hb', hpb⟩ := hp
        rw [List.mem_map] at hpb
        obtain ⟨v, _, rfl⟩ := hpb
        have : b' ≠ k := fun he => hnd'.1 (he ▸ hb')
        simpa using this
      rw [hfst, hsnd, List.append_nil]
    · have hka : k ≠ a := fun he => hnd'.1 (he ▸ hkr)
      have hfst : valuesFor k ((g a).map (fun v => (a, v))) = [] := by
        rw [valuesFor, List.map_eq_nil_iff, List.filter_eq_nil_iff]
        intro p hp
        rw [List.mem_map] at hp
        obtain ⟨v, _, rfl⟩ := hp
        simpa using fun he => hka he.symm
      rw [hfst, List.nil_append]
      exact ih hnd'.2 k hkr

theorem firstDedup_flatMap_group (g : Str → List Str) :
    ∀ (ks : List Str), ks.Nodup → (∀ k ∈ ks, g k ≠ []) →
      firstDedup ((ks.flatMap (fun a => (g a).map (fun v => (a, v)))).map (fun p => p.1))
        = ks := by
  intro ks
  induction ks with
  | nil =>
    intro _ _
    rw [List.flatMap_nil, List.map_nil, firstDedup_nil]
  | cons a rest ih =>
    intro hnd hne
    have hnd' := List.nodup_cons.mp hnd
    rw [List.flatMap_cons, List.map_append, List.map_map]
    cases hga : g a with
    | nil => exact absurd hga (hne a (List.mem_cons_self _ _))
    | cons c gt =>
      rw [show ((c :: gt).map ((fun p => p.1) ∘ fun v => (a, v)) :)
          = a :: gt.map (fun _ => a) from by simp [Function.comp]]
      rw [List.cons_append, firstDedup_cons]
      have hfl : (gt.map (fun _ => a) ++
          (rest.flatMap (fun a => (g a).map (fun v => (a, v)))).map (fun p => p.1)).filter
            (fun x => !(x == a))
          = (rest.flatMap (fun a => (g a).map (fun v => (a, v)))).map (fun p => p.1) := by
        rw [List.filter_append]
        have h1 : (gt.map (fun _ => a)).filter (fun x => !(x == a)) = [] := by
          rw [List.filter_eq_nil_iff]
          intro x hx
          rw [List.mem_map] at hx
          obtain ⟨_, _, rfl⟩ := hx
          simp
        have h2 : ((rest.flatMap (fun a => (g a).map (fun v => (a, v)))).map
            (fun p => p.1)).filter (fun x => !(x == a))
            = (rest.flatMap (fun a => (g a).map (fun v => (a, v)))).map (fun p => p.1) := by
          rw [List.filter_eq_self]
          intro x hx
          rw [List.mem_map] at hx
          obtain ⟨p, hp, rfl⟩ := hx
          rw [List.mem_flatMap] at hp
          obtain ⟨b', hb', hpb⟩ := hp
          rw [List.mem_map] at hpb
          obtain ⟨v, _, rfl⟩ := hpb
          have : b' ≠ a := fun he => hnd'.1 (he ▸ hb')
          simpa using this
        rw [h1, h2, List.nil_append]
      rw [hfl, ih hnd'.2 (fun b' hb' => hne b' (List.mem_cons_of_mem _ hb'))]

theorem canon_itemsFlat_canon (ps : List (Str × Str)) :
    canon (itemsFlat (canon ps)) = canon ps := by
  rw [itemsFlat_canon]
  have hnd : (firstDedup (ps.map (fun p => p.1))).Nodup := nodup_firstDedup _
  have hne : ∀ k ∈ firstDedup (ps.map (fun p => p.1)), valuesFor k ps ≠ [] := by
    intro k hk
    exact (valuesFor_ne_nil_iff k ps).mpr ((mem_firstDedup _ _).mp hk)
  rw [canon, firstDedup_flatMap_group _ _ hnd hne, canon]
  refine List.map_congr_left ?_
  intro a ha
  rw [valuesFor_flatMap_group _ _ hnd a ha]

/-! ### Claim theorems: the FlatINI Config model (C1, C2, C9) -/

/-- C1, counterexample: in the blob with lines `a = 1` and `a = 2` the
key `a` occurs twice, and indexing the parsed Config at `a` returns the
Python list of both values, not the first value `1` — `__getitem__` is
not overridden, so it returns whatever `__setitem__` stored. -/
theorem lookup_multi_counterexample :
    getItem? (parseBlob (chars "a = 1\na = 2")) (chars "a")
        = some (INIVal.multi [chars "1", chars "2"]) ∧
      INIVal.multi [chars "1", chars "2"] ≠ INIVal.scalar (chars "1") :=
  ⟨by decide, by decide⟩

/-- C1, amended: indexing a Config parsed from a blob by a key K
returns nothing when K never occurs, the bare first value when K occurs
exactly once, and the ordered Python list of all of K's values when K
occurs more than once (`mkVal` packs a singleton as a bare value and a
longer list as a list). -/
theorem lookup_returns_all_values (b k : Str) :
    getItem? (parseBlob b) k =
      if valuesFor k (blobPairs b) = [] then none
      else some (mkVal (valuesFor k (blobPairs b))) := by
  rw [parseBlob_eq_canon]
  exact getItem?_canon (blobPairs b) k

/-- C2, counterexample: for the blob `a = 1`, `b = 2`, `a = 3`,
iteration yields the two `a` entries adjacent (grouped at the first
occurrence of `a`), not interleaved with `b = 2` as in the source. -/
theorem items_order_counterexample :
    itemsFlat (parseBlob (chars "a = 1\nb = 2\na = 3"))
        = [(chars "a", chars "1"), (chars "a", chars "3"), (chars "b", chars "2")] ∧
      blobPairs (chars "a = 1\nb = 2\na = 3")
        = [(chars "a", chars "1"), (chars "b", chars "2"), (chars "a", chars "3")] ∧
      itemsFlat (parseBlob (chars "a = 1\nb = 2\na = 3"))
        ≠ blobPairs (chars "a = 1\nb = 2\na = 3") :=
  ⟨by decide, by decide, by decide⟩

/-- C2, amended: iterating a parsed Config yields exactly one entry per
non-blank non-comment source line, with each key's values in source
order, but entries are grouped by key at the position of the key's
first occurrence (keys in first-occurrence order, each key's entries
adjacent), not interleaved in source line order. -/
theorem items_grouped_by_first_occurrence (b : Str) :
    itemsFlat (parseBlob b) =
      (firstDedup ((blobPairs b).map (fun p => p.1))).flatMap
        (fun k => (valuesFor k (blobPairs b)).map (fun v => (k, v))) ∧
    (itemsFlat (parseBlob b)).length = (blobPairs b).length := by
  constructor
  · rw [parseBlob_eq_canon]
    exact itemsFlat_canon _
  · rw [parseBlob_eq_canon]
    exact length_itemsFlat_canon _

/-- C9: serializing a parsed Config via newline-joined `key = value`
lines over its ordered entries (`__str__`) and reparsing the result
with FlatConfig yields the very same Config: same keys in the same
order and the same ordered value list per key. -/
theorem flatini_roundtrip (b : Str) :
    parseBlob (strFlat (parseBlob b)) = parseBlob b := by
  by_cases hemp : itemsFlat (parseBlob b) = []
  · have hps : blobPairs b = [] := by
      have hlen := length_itemsFlat_canon (blobPairs b)
      rw [← parseBlob_eq_canon, hemp] at hlen
      exact List.length_eq_zero.mp hlen.symm
    rw [strFlat, hemp]
    rw [parseBlob_eq_canon b, hps, canon]
    simp only [List.map_nil, firstDedup_nil]
    rfl
  · have hgood := itemsFlat_parseBlob_good b
    have hmapne : (itemsFlat (parseBlob b)).map serLine ≠ [] := by
      simpa using hemp
    have hnl : ∀ l ∈ (itemsFlat (parseBlob b)).map serLine, '\n' ∉ l := by
      intro l hl
      rw [List.mem_map] at hl
      obtain ⟨q, hq, rfl⟩ := hl
      have hg := hgood q hq
      intro hc
      rw [serLine] at hc
      rcases List.mem_append.mp hc with h | h
      · exact hg.knl h
      · rcases List.mem_cons.mp h with h1 | h1
        · exact absurd h1 (by decide)
        · rcases List.mem_cons.mp h1 with h2 | h2
          · exact absurd h2 (by decide)
          · rcases List.mem_cons.mp h2 with h3 | h3
            · exact absurd h3 (by decide)
            · exact hg.vnl h3
    show parseLines (splitChar '\n' (strFlat (parseBlob b))) = parseBlob b
    rw [strFlat, splitChar_joinLines _ hmapne hnl]
    rw [parseLines_eq_canon, parsedPairs, filterMap_parseLineL_serLine _ hgood,
      parseBlob_eq_canon]
    exact canon_itemsFlat_canon (blobPairs b)

/-! ### Claim theorems: hash-addressed fetching (C3, C4) -/

theorem cacheLookup_write_self (st : CacheState) (ns n d : Str) :
    cacheLookup (cacheWrite st ns n d) ns n = some d := by
  rw [cacheLookup, cacheWrite, List.find?_cons_of_pos _ (by simp)]
  rfl

/-- C3: `getConfig` is cache-then-network. When the cache holds
(`config`, H) the bytes are read from the cache with no network fetch
and no cache write; on a miss with a 200 response the client performs
exactly one fetch of `config/aa/bb/H` against the CDN host and exactly
one cache write of the body under (`config`, H), and parses the body
with FlatConfig. Consequently a first call on a missing entry fetches
and writes once, and a second call with the same hash fetches nothing
and leaves the cache unchanged, returning the same parsed Config. -/
theorem get_config_cache_spec (net : Net) (host : Str) (st : CacheState) (h : Str)
    (hmiss : cacheLookup st (chars "config") h = none)
    (hok : (net (host ++ hashPath (chars "config") h)).status = 200) :
    (∀ (st2 : CacheState) (d : Str), cacheLookup st2 (chars "config") h = some d →
      get_config net host st2 h = ⟨Except.ok (parseBlob d), st2, []⟩) ∧
    get_config net host st h =
      ⟨Except.ok (parseBlob (net (host ++ hashPath (chars "config") h)).content),
       cacheWrite st (chars "config") h (net (host ++ hashPath (chars "config") h)).content,
       [Ev.fetch (host ++ hashPath (chars "config") h), Ev.cwrite (chars "config") h]⟩ ∧
    get_config net host
        (cacheWrite st (chars "config") h
          (net (host ++ hashPath (chars "config") h)).content) h
      = ⟨Except.ok (parseBlob (net (host ++ hashPath (chars "config") h)).content),
         cacheWrite st (chars "config") h
           (net (host ++ hashPath (chars "config") h)).content,
         []⟩ := by
  refine ⟨?_, ?_, ?_⟩
  · intro st2 d hhit
    rw [get_config, get_or_cache, Option.getD_none, hhit]
  · rw [get_config, get_or_cache, Option.getD_none, hmiss, cdn_get, if_neg (by rw [hok]; simp)]
    rfl
  · rw [get_config, get_or_cache, Option.getD_none, cacheLookup_write_self]

theorem get_config_cache_spec_witness :
    get_config netCfg hostC [] hashC =
      ⟨Except.ok (parseBlob (netCfg (hostC ++ hashPath (chars "config") hashC)).content),
       cacheWrite [] (chars "config") hashC
         (netCfg (hostC ++ hashPath (chars "config") hashC)).content,
       [Ev.fetch (hostC ++ hashPath (chars "config") hashC), Ev.cwrite (chars "config") hashC]⟩ ∧
    get_config netCfg hostC
        (cacheWrite [] (chars "config") hashC
          (netCfg (hostC ++ hashPath (chars "config") hashC)).content) hashC
      = ⟨Except.ok (parseBlob (netCfg (hostC ++ hashPath (chars "config") hashC)).content),
         cacheWrite [] (chars "config") hashC
           (netCfg (hostC ++ hashPath (chars "config") hashC)).content,
         []⟩ :=
  have h := get_config_cache_spec netCfg hostC [] hashC rfl rfl
  ⟨h.2.1, h.2.2⟩

/-- C4: a CDN fetch whose response status is not 200 fails with
`ServerError` carrying the status code and the requested URL (host plus
path), performs exactly one request with no retry, and when it happens
inside `get_or_cache` no cache entry is written: the cache state is
returned unchanged and no write event occurs. -/
theorem cdn_get_error_spec (net : Net) (host : Str) (st : CacheState)
    (key hash : Str) (name? : Option Str)
    (hmiss : cacheLookup st key (name?.getD hash) = none)
    (hbad : (net (host ++ hashPath key (name?.getD hash))).status ≠ 200) :
    cdn_get net host (hashPath key (name?.getD hash)) =
      (Except.error (PyErr.serverError
          (net (host ++ hashPath key (name?.getD hash))).status
          (host ++ hashPath key (name?.getD hash))),
       [Ev.fetch (host ++ hashPath key (name?.getD hash))]) ∧
    get_or_cache net host st key hash name? =
      ⟨Except.error (PyErr.serverError
          (net (host ++ hashPath key (name?.getD hash))).status
          (host ++ hashPath key (name?.getD hash))), st,
       [Ev.fetch (host ++ hashPath key (name?.getD hash))]⟩ := by
  constructor
  · rw [cdn_get, if_pos hbad]
  · rw [get_or_cache, hmiss, cdn_get, if_pos hbad]

theorem cdn_get_error_spec_witness :
    get_or_cache net404 hostC [] (chars "config") hashC none =
      ⟨Except.error (PyErr.serverError
          (net404 (hostC ++ hashPath (chars "config") ((none : Option Str).getD hashC))).status
          (hostC ++ hashPath (chars "config") ((none : Option Str).getD hashC))), [],
       [Ev.fetch (hostC ++ hashPath (chars "config") ((none : Option Str).getD hashC))]⟩ :=
  (cdn_get_error_spec net404 hostC [] (chars "config") hashC none rfl (by decide)).2

/-! ### Claim theorems: manifest fetch and CDN host resolution (C5, C6, C10) -/

theorem get_cached_csv_fresh (net : Net) (md5hex : Str → Str) (host : Str)
    (cache : CacheState) (oc : ObjCache) (path : Str)
    (hfresh : oc.find? (fun e => e.1 == path) = none) :
    get_cached_csv net md5hex host cache oc path =
      match parse_csv (csvRows (net (host ++ path)).content) with
      | Except.ok rows =>
        ⟨Except.ok rows,
         cacheWrite cache (chars "cdns") (md5hex (net (host ++ path)).content)
           (net (host ++ path)).content,
         oc ++ [(path, rows)],
         [Ev.fetch (host ++ path), Ev.cwrite (chars "cdns") (md5hex (net (host ++ path)).content)]⟩
      | Except.error e =>
        ⟨Except.error e,
         cacheWrite cache (chars "cdns") (md5hex (net (host ++ path)).content)
           (net (host ++ path)).content,
         oc,
         [Ev.fetch (host ++ path), Ev.cwrite (chars "cdns") (md5hex (net (host ++ path)).content)]⟩ := by
  rw [get_cached_csv, hfresh]
  rfl

/-- C5, counterexample: when the CDN responds to the `/cdns` fetch with
an empty body (status 200), the manifest yields no CDN entries, yet
resolving the CDN host fails with an `IndexError` from `rows[0]` in
`_parse_csv`, not with `ServerConfigurationError`. -/
theorem cdn_empty_body_counterexample :
    (conn_cdn netEmptyBody md5c patchHostC (chars "eu") [] [] none).result
        = Except.error PyErr.indexError ∧
      PyErr.indexError ≠ PyErr.serverConfigurationError :=
  ⟨rfl, by decide⟩

/-- C5, amended: when the fetched `cdns` manifest parses to an empty
entry sequence (a header row but no data rows), CDN host resolution
fails with `ServerConfigurationError`; a manifest with no rows at all
(an empty body) instead fails earlier, with an `IndexError` raised by
the parser when it reads the header row. -/
theorem cdn_empty_manifest_spec (net : Net) (md5hex : Str → Str) (host region : Str)
    (cache : CacheState) (oc : ObjCache)
    (hfresh : oc.find? (fun e => e.1 == chars "/cdns") = none)
    (hempty : parse_csv (csvRows (net (host ++ chars "/cdns")).content) = Except.ok []) :
    (conn_cdn net md5hex host region cache oc none).result
      = Except.error PyErr.serverConfigurationError := by
  show (conn_cdn_compute net md5hex host region cache oc).result = _
  rw [conn_cdn_compute, get_cached_csv_fresh net md5hex host cache oc _ hfresh, hempty]
  rfl

theorem cdn_empty_manifest_spec_witness :
    (conn_cdn netHdrOnly md5c patchHostC (chars "eu") [] [] none).result
      = Except.error PyErr.serverConfigurationError :=
  cdn_empty_manifest_spec netHdrOnly md5c patchHostC (chars "eu") [] [] rfl rfl

theorem findCdnRow_eq_find? (region : Str) :
    ∀ (l : List Row), (∀ e ∈ l, (dictGet e (chars "Name")).isSome = true) →
      findCdnRow region l
        = Except.ok (l.find? (fun e => dictGet e (chars "Name") == some region)) := by
  intro l
  induction l with
  | nil => intro _; rfl
  | cons c rest ih =>
    intro hall
    obtain ⟨n, hn⟩ := Option.isSome_iff_exists.mp (hall c (List.mem_cons_self _ _))
    by_cases hreg : n = region
    · subst hreg
      rw [findCdnRow, hn]
      show (if n = n then Except.ok (some c) else findCdnRow n rest) = _
      rw [if_pos rfl, List.find?_cons_of_pos _ (by simp [hn])]
    · rw [findCdnRow, hn]
      show (if n = region then Except.ok (some c) else findCdnRow region rest) = _
      rw [if_neg hreg, List.find?_cons_of_neg _ (by simp [hn, hreg]),
        ih (fun e he => hall e (List.mem_cons_of_mem _ he))]

/-- C6: over a non-empty parsed `cdns` entry list in which every entry
has a `Name` field, host resolution selects the first entry whose
`Name` equals the requested region, or the first entry as fallback
(`selSpec`, written from the spec's selection rule), and returns
exactly `http://` ++ first space-separated host ++ `/` ++ Path ++ `/`,
given that the selected entry carries `Hosts` and `Path` fields. -/
theorem cdn_selection_spec (region : Str) (entries : List Row) (hosts path : Str)
    (hne : entries ≠ [])
    (hnm : ∀ e ∈ entries, (dictGet e (chars "Name")).isSome = true)
    (hh : dictGet (selSpec region entries) (chars "Hosts") = some hosts)
    (hp : dictGet (selSpec region entries) (chars "Path") = some path) :
    resolveCdnHost region entries =
      Except.ok (chars "http://" ++ hosts.takeWhile (fun c => !(c == ' '))
        ++ chars "/" ++ path ++ chars "/") := by
  rw [selSpec] at hh hp
  rw [resolveCdnHost, if_neg hne, findCdnRow_eq_find? region entries hnm]
  show (match dictGet ((entries.find? (fun e => dictGet e (chars "Name") == some region)).getD
        (entries.headD [])) (chars "Hosts") with
      | none => Except.error (PyErr.keyError (chars "Hosts"))
      | some hosts =>
        match dictGet ((entries.find? (fun e => dictGet e (chars "Name") == some region)).getD
            (entries.headD [])) (chars "Path") with
        | none => Except.error (PyErr.keyError (chars "Path"))
        | some p =>
          Except.ok (chars "http://" ++ hosts.takeWhile (fun c => !(c == ' '))
            ++ chars "/" ++ p ++ chars "/") : Except PyErr Str)
    = Except.ok (chars "http://" ++ hosts.takeWhile (fun c => !(c == ' '))
        ++ chars "/" ++ path ++ chars "/")
  rw [hh]
  rw [hp]

theorem cdn_selection_spec_witness :
    resolveCdnHost (chars "eu") entriesC =
      Except.ok (chars "http://"
        ++ (chars "h1.cdn.net h2.cdn.net").takeWhile (fun c => !(c == ' '))
        ++ chars "/" ++ chars "tpr/hs" ++ chars "/") :=
  cdn_selection_spec (chars "eu") entriesC (chars "h1.cdn.net h2.cdn.net") (chars "tpr/hs")
    (by decide) (by decide) (by decide) (by decide)

/-! ### Claim theorems: manifest table parsing (C7, C8) -/

theorem find?_append_none (p : (Str × Str) → Bool) (l1 l2 : List (Str × Str))
    (h : ∀ x ∈ l1, ¬ p x = true) : (l1 ++ l2).find? p = l2.find? p := by
  induction l1 with
  | nil => rw [List.nil_append]
  | cons a rest ih =>
    rw [List.cons_append, List.find?_cons_of_neg _ (h a (List.mem_cons_self _ _)),
      ih (fun x hx => h x (List.mem_cons_of_mem _ hx))]

theorem find?_append_some (p : (Str × Str) → Bool) (l1 l2 : List (Str × Str)) (a : Str × Str)
    (h : l1.find? p = some a) : (l1 ++ l2).find? p = some a := by
  induction l1 with
  | nil => simp at h
  | cons x rest ih =>
    by_cases hx : p x = true
    · rw [List.find?_cons_of_pos _ hx] at h
      rw [List.cons_append, List.find?_cons_of_pos _ hx]
      exact h
    · rw [List.find?_cons_of_neg _ hx] at h
      rw [List.cons_append, List.find?_cons_of_neg _ hx]
      exact ih h

theorem dictGet_zip_nodup :
    ∀ (names row : List Str), names.Nodup → row.length = names.length →
      ∀ (j : Nat) (hj : j < names.length) (hj2 : j < row.length),
        dictGet (names.zip row) (names.get ⟨j, hj⟩) = some (row.get ⟨j, hj2⟩) := by
  intro names
  induction names with
  | nil =>
    intro row _ _ j hj _
    exact absurd hj (by simp)
  | cons n ns ih =>
    intro row hnd hlen j hj hj2
    match row, j with
    | r :: rs, 0 =>
      rw [List.zip_cons_cons, dictGet, List.reverse_cons]
      have hnone : ∀ x ∈ (ns.zip rs).reverse,
          ¬ ((fun p => p.1 == (n :: ns).get ⟨0, hj⟩) x = true) := by
        intro x hx
        rw [List.mem_reverse] at hx
        obtain ⟨x1, x2⟩ := x
        have hx1 : x1 ∈ ns := (List.of_mem_zip hx).1
        have hne : x1 ≠ n := fun he => (List.nodup_cons.mp hnd).1 (he ▸ hx1)
        simpa using hne
      rw [find?_append_none _ _ _ hnone, List.find?_cons_of_pos _ (by simp)]
      rfl
    | r :: rs, Nat.succ j' =>
      have hj' : j' < ns.length := Nat.lt_of_succ_lt_succ hj
      have hj2' : j' < rs.length := Nat.lt_of_succ_lt_succ hj2
      have hkey : (n :: ns).get ⟨j' + 1, hj⟩ = ns.get ⟨j', hj'⟩ := rfl
      have hih := ih rs (List.nodup_cons.mp hnd).2 (by simpa using hlen) j' hj' hj2'
      rw [dictGet] at hih
      rw [List.zip_cons_cons, dictGet, List.reverse_cons, hkey]
      cases hfind : (ns.zip rs).reverse.find? (fun p => p.1 == ns.get ⟨j', hj'⟩) with
      | none =>
        rw [hfind] at hih
        simp at hih
      | some q =>
        rw [hfind] at hih
        rw [find?_append_some _ _ _ q hfind]
        simpa using hih

/-- C7, counterexample: a manifest whose header has two cells that both
strip to the column name `A` (equal cell counts with the data row)
parses, with row dict semantics, to a mapping in which `A` is bound to
the later cell `y`: the claimed equation `parse(M)[0][A] == R[0]`
(that is, `= x`) fails at column index 0. -/
theorem csv_duplicate_header_counterexample :
    parse_csv [[chars "A", chars "A"], [chars "x", chars "y"]]
        = Except.ok [[(chars "A", chars "x"), (chars "A", chars "y")]] ∧
      dictGet [(chars "A", chars "x"), (chars "A", chars "y")] (stripType (chars "A"))
        = some (chars "y") ∧
      some (chars "y") ≠ some (chars "x") :=
  ⟨rfl, by decide, by decide⟩

/-- C7, amended: for a manifest whose stripped header names are
pairwise distinct, a data row with as many cells as the header parses
to a row mapping that binds the stripped name of header cell j to the
row's cell j, for every column index j; the output has one row mapping
per data row in source order. With duplicated stripped names the later
duplicate column's value wins for that name. -/
theorem csv_parse_spec (header : List Str) (rest : List (List Str)) (i j : Nat)
    (hnd : (header.map stripType).Nodup)
    (hi : i < rest.length) (hj : j < header.length)
    (hlen : (rest.get ⟨i, hi⟩).length = header.length) :
    parse_csv (header :: rest)
        = Except.ok (rest.map (fun row => (header.map stripType).zip row)) ∧
      dictGet ((header.map stripType).zip (rest.get ⟨i, hi⟩))
          (stripType (header.get ⟨j, hj⟩))
        = some ((rest.get ⟨i, hi⟩).get ⟨j, by rw [hlen]; exact hj⟩) := by
  constructor
  · rfl
  · have hkey : stripType (header.get ⟨j, hj⟩)
        = (header.map stripType).get ⟨j, by simpa using hj⟩ := by
      simp
    rw [hkey]
    exact dictGet_zip_nodup (header.map stripType) (rest.get ⟨i, hi⟩) hnd
      (by simpa using hlen) j (by simpa using hj) (by rw [hlen]; exact hj)

theorem csv_parse_spec_witness :
    parse_csv [[chars "Region!STRING:0", chars "BuildConfig!HEX:16"], [chars "eu", chars "abc"]]
        = Except.ok ([[chars "eu", chars "abc"]].map
            (fun row => ([chars "Region!STRING:0", chars "BuildConfig!HEX:16"].map stripType).zip row)) ∧
      dictGet (([chars "Region!STRING:0", chars "BuildConfig!HEX:16"].map stripType).zip
            ([[chars "eu", chars "abc"]].get ⟨0, by decide⟩))
          (stripType ([chars "Region!STRING:0", chars "BuildConfig!HEX:16"].get ⟨1, by decide⟩))
        = some (([[chars "eu", chars "abc"]].get ⟨0, by decide⟩).get ⟨1, by decide⟩) :=
  csv_parse_spec [chars "Region!STRING:0", chars "BuildConfig!HEX:16"] [[chars "eu", chars "abc"]]
    0 1 (by decide) (by decide) (by decide) (by decide)

theorem zip_eq_take_zip : ∀ (l1 l2 : List Str), l1.zip l2 = (l1.take l2.length).zip l2 := by
  intro l1
  induction l1 with
  | nil => intro l2; rw [List.take_nil]
  | cons a r ih =>
    intro l2
    cases l2 with
    | nil => rfl
    | cons b s =>
      rw [List.zip_cons_cons, ih s, List.length_cons, List.take_succ_cons,
        List.zip_cons_cons]

theorem map_fst_zip_of_le : ∀ (l1 l2 : List Str), l1.length ≤ l2.length →
    (l1.zip l2).map (fun p => p.1) = l1 := by
  intro l1
  induction l1 with
  | nil => intro l2 _; rfl
  | cons a r ih =>
    intro l2 h
    cases l2 with
    | nil => simp at h
    | cons b s =>
      rw [List.zip_cons_cons, List.map_cons, ih s (by simpa using h)]

theorem dictGet_eq_none_of_not_mem (d : Row) (nm : Str) (h : nm ∉ d.map (fun p => p.1)) :
    dictGet d nm = none := by
  rw [dictGet, List.find?_eq_none.mpr ?_]
  · rfl
  · intro x hx
    rw [List.mem_reverse] at hx
    have hx1 : x.1 ∈ d.map (fun p => p.1) := List.mem_map.mpr ⟨x, hx, rfl⟩
    simp only [beq_iff_eq]
    exact fun he => h (he ▸ hx1)

/-- C8: a manifest data row with fewer cells than the header does not
make parsing fail: the row parses to the positional zip of the stripped
header names with the row cells, which truncates to the row's length —
the first k header names are bound to the row's k cells, and any
stripped header name not among those first k is absent from the row
mapping (no padding with empty values). -/
theorem csv_short_row_spec (header : List Str) (rest : List (List Str)) (i : Nat)
    (hi : i < rest.length)
    (hshort : (rest.get ⟨i, hi⟩).length < header.length) :
    parse_csv (header :: rest)
        = Except.ok (rest.map (fun row => (header.map stripType).zip row)) ∧
      ((header.map stripType).zip (rest.get ⟨i, hi⟩)).length = (rest.get ⟨i, hi⟩).length ∧
      (header.map stripType).zip (rest.get ⟨i, hi⟩)
        = ((header.map stripType).take (rest.get ⟨i, hi⟩).length).zip (rest.get ⟨i, hi⟩) ∧
      ∀ nm, nm ∉ (header.map stripType).take (rest.get ⟨i, hi⟩).length →
        dictGet ((header.map stripType).zip (rest.get ⟨i, hi⟩)) nm = none := by
  have hle : (rest.get ⟨i, hi⟩).length ≤ (header.map stripType).length := by
    rw [List.length_map]
    exact Nat.le_of_lt hshort
  refine ⟨rfl, ?_, zip_eq_take_zip _ _, ?_⟩
  · rw [List.length_zip]
    exact Nat.min_eq_right hle
  · intro nm hnm
    rw [zip_eq_take_zip]
    refine dictGet_eq_none_of_not_mem _ nm ?_
    rw [map_fst_zip_of_le _ _ (by rw [List.length_take]; exact Nat.min_le_left _ _)]
    exact hnm

theorem csv_short_row_spec_witness :
    parse_csv [[chars "A", chars "B"], [chars "x"]]
        = Except.ok ([[chars "x"]].map
            (fun row => ([chars "A", chars "B"].map stripType).zip row)) ∧
      (([chars "A", chars "B"].map stripType).zip ([[chars "x"]].get ⟨0, by decide⟩)).length
        = ([[chars "x"]].get ⟨0, by decide⟩).length ∧
      ([chars "A", chars "B"].map stripType).zip ([[chars "x"]].get ⟨0, by decide⟩)
        = (([chars "A", chars "B"].map stripType).take
            ([[chars "x"]].get ⟨0, by decide⟩).length).zip ([[chars "x"]].get ⟨0, by decide⟩) ∧
      dictGet (([chars "A", chars "B"].map stripType).zip ([[chars "x"]].get ⟨0, by decide⟩))
          (chars "B") = none :=
  have h := csv_short_row_spec [chars "A", chars "B"] [[chars "x"]] 0 (by decide) (by decide)
  ⟨h.1, h.2.1, h.2.2.1, h.2.2.2 (chars "B") (by decide)⟩

/-- C10: for a fresh manifest path, the `/cdns` or `/versions` fetch
through `self.get` never raises `ServerError` whatever the HTTP status:
the body is unconditionally written to the cache under namespace `cdns`
keyed by its MD5 digest, exactly one fetch and one cache write occur,
the result is the manifest parse of the body (which can only fail with
the parser's `IndexError`), and the whole outcome depends only on the
response body, never on the status code. -/
theorem manifest_fetch_no_status_check (net : Net) (md5hex : Str → Str) (host : Str)
    (cache : CacheState) (oc : ObjCache) (path : Str)
    (hfresh : oc.find? (fun e => e.1 == path) = none) :
    (get_cached_csv net md5hex host cache oc path).cache
        = cacheWrite cache (chars "cdns") (md5hex (net (host ++ path)).content)
            (net (host ++ path)).content ∧
    (get_cached_csv net md5hex host cache oc path).events
        = [Ev.fetch (host ++ path),
           Ev.cwrite (chars "cdns") (md5hex (net (host ++ path)).content)] ∧
    (get_cached_csv net md5hex host cache oc path).result
        = parse_csv (csvRows (net (host ++ path)).content) ∧
    (∀ (s : Nat) (u : Str), (get_cached_csv net md5hex host cache oc path).result
        ≠ Except.error (PyErr.serverError s u)) ∧
    (get_cached_csv net md5hex host cache oc path).result
        ≠ Except.error PyErr.serverConfigurationError ∧
    (∀ net2 : Net, (net2 (host ++ path)).content = (net (host ++ path)).content →
      get_cached_csv net2 md5hex host cache oc path
        = get_cached_csv net md5hex host cache oc path) := by
  rw [get_cached_csv_fresh net md5hex host cache oc path hfresh]
  cases hp : parse_csv (csvRows (net (host ++ path)).content) with
  | ok rows =>
    refine ⟨rfl, rfl, rfl, ?_, ?_, ?_⟩
    · intro s u hcon
      simp at hcon
    · simp
    · intro net2 h2
      rw [get_cached_csv_fresh net2 md5hex host cache oc path hfresh, h2, hp]
  | error e =>
    have he : e = PyErr.indexError := by
      cases hrows : csvRows (net (host ++ path)).content with
      | nil =>
        rw [hrows] at hp
        exact (Except.error.inj hp).symm
      | cons hd tl =>
        rw [hrows] at hp
        exact Except.noConfusion hp
    subst he
    refine ⟨rfl, rfl, rfl, ?_, ?_, ?_⟩
    · intro s u hcon
      have := Except.error.inj hcon
      simp at this
    · intro hcon
      have := Except.error.inj hcon
      simp at this
    · intro net2 h2
      rw [get_cached_csv_fresh net2 md5hex host cache oc path hfresh, h2, hp]

theorem manifest_fetch_no_status_check_witness :
    (get_cached_csv net404 md5c patchHostC [] [] (chars "/cdns")).result
        ≠ Except.error (PyErr.serverError 404 (patchHostC ++ chars "/cdns")) ∧
    (get_cached_csv net404 md5c patchHostC [] [] (chars "/cdns")).result
        ≠ Except.error PyErr.serverConfigurationError :=
  have h := manifest_fetch_no_status_check net404 md5c patchHostC [] [] (chars "/cdns") rfl
  ⟨h.2.2.2.1 404 (patchHostC ++ chars "/cdns"), h.2.2.2.2.1⟩
